import Mathlib

set_option maxRecDepth 8192

/-!
Shallow embedding of `main.c` from the ATtiny817 Manchester-encoder example
(`manchester-encoding-based-on-core-processing-studio`).

The program drives a Manchester waveform on pin PA4 from the timer interrupt
`ISR(TCB0_INT_vect)`, fed by a single-slot transmit buffer filled by
`send_encoded_data`.  The two build-time encoding conventions
(`ENCODING_G_E_THOMAS` vs `ENCODING_IEEE`) are modelled by a `Convention`
parameter carrying the per-convention constants that the `#ifdef` blocks
choose: the seed of the `prev` static and the level written at the end of a
packet (`PORTA.OUTCLR` vs `PORTA.OUTSET`).

Machine integers are modelled as `Nat` with an explicit `% 256` where the C
`uint8_t` arithmetic can actually wrap; byte values live in `Nat` (only the
low 8 bits are ever inspected, matching `uint8_t` storage).  The pin is a
`Bool` (`true` = high).  One `MState` record gathers the globals
(`transmit_buffer`, `transmit_buffer_length`, `sending_in_progress`), the
ISR statics (`prev`, `clk`, `transmit_buffer_index`, `bit_index`), the PA4
output level, and the TCB0 enable bit.
-/

/-- Build-time encoding convention: `geThomas` is the `ENCODING_G_E_THOMAS`
build (the shipped default), `ieee` the `ENCODING_IEEE` build. -/
inductive Convention
  | geThomas
  | ieee
deriving DecidableEq

/-- Initializer of the ISR static `prev`: `0` under `ENCODING_G_E_THOMAS`,
`1` under `ENCODING_IEEE`. -/
def Convention.prevSeed : Convention → Bool
  | .geThomas => false
  | .ieee => true

/-- Level driven onto PA4 by the packet-completion branch of the ISR:
`PORTA.OUTCLR` (low) under `ENCODING_G_E_THOMAS`, `PORTA.OUTSET` (high)
under `ENCODING_IEEE`. -/
def Convention.restLevel : Convention → Bool
  | .geThomas => false
  | .ieee => true

/-- Initial PA4 level at program start.  The `ENCODING_IEEE` build executes
`PORTA.OUTSET = PIN4_bm` in `main`; under `ENCODING_G_E_THOMAS` the pin is
left at the low level established by the platform init (the spec's rest
level for convention A, set up outside `main.c`). -/
def Convention.initLevel : Convention → Bool
  | .geThomas => false
  | .ieee => true

/-- Whole-machine state: globals, ISR statics, PA4 level, TCB0 enable bit. -/
structure MState where
  buffer : List Nat
  length : Nat
  busy : Bool
  pin : Bool
  prev : Bool
  clk : Bool
  byteIndex : Nat
  bitIndex : Nat
  tcbEnabled : Bool
deriving DecidableEq

/-- The data bit read on a data-edge tick:
`(transmit_buffer[transmit_buffer_index] & (1 << bit_index)) > 0`. -/
def nextBit (s : MState) : Bool :=
  Nat.testBit (s.buffer.getD s.byteIndex 0) s.bitIndex

/-- One invocation of `ISR(TCB0_INT_vect)`.  On a clock tick (`clk` set) the
pin is toggled and `clk` cleared.  On a data tick the pin is toggled iff the
next data bit equals `prev`; `if (!bit_index--)` then rolls the bit index
over, and when the incremented byte index reaches `transmit_buffer_length`
the completion branch drives the rest level, resets the indices, disables
TCB0 and clears `sending_in_progress`.  Finally `clk` is set and `prev`
receives the consumed bit. -/
def isrStep (conv : Convention) (s : MState) : MState :=
  if s.clk then
    { s with clk := false, pin := !s.pin }
  else
    let nb := nextBit s
    let s1 := if nb = s.prev then { s with pin := !s.pin } else s
    let s2 :=
      if s1.bitIndex = 0 then
        let s3 : MState := { s1 with bitIndex := 7 }
        let ni := (s3.byteIndex + 1) % 256
        if s3.length ≤ ni then
          { s3 with pin := conv.restLevel, byteIndex := 0, bitIndex := 6,
                    tcbEnabled := false, busy := false }
        else
          { s3 with byteIndex := ni }
      else
        { s1 with bitIndex := s1.bitIndex - 1 }
    { s2 with clk := true, prev := nb }

/-- `send_encoded_data(transmit_data, num_bytes)` with the payload given as
the list of the `num_bytes` bytes the C loop reads.  When not busy it copies
the payload into `transmit_buffer` starting at index 0, sets
`transmit_buffer_length = num_bytes + 1` (`uint8_t` arithmetic, hence the
`% 256`), raises `sending_in_progress` and returns 1; otherwise it returns 0
with no state change. -/
def send_encoded_data (s : MState) (payload : List Nat) : MState × Nat :=
  if s.busy = false then
    ({ s with buffer := payload ++ s.buffer.drop payload.length,
              length := (payload.length + 1) % 256,
              busy := true }, 1)
  else
    (s, 0)

/-- Program state right after `atmel_start_init`, `TCB0_init` and the
conditional `PORTA.OUTSET`: `transmit_buffer[255] = {START_BYTE}` (0x55 then
zeros), zero length, idle, ISR statics at their initializers, TCB0 enabled
by `TCB0_init`. -/
def initState (conv : Convention) : MState :=
  { buffer := 0x55 :: List.replicate 254 0
    length := 0
    busy := false
    pin := conv.initLevel
    prev := conv.prevSeed
    clk := true
    byteIndex := 0
    bitIndex := 6
    tcbEnabled := true }

/-- PA4 levels produced by up to `n` timer ticks: the ISR runs once per tick
while TCB0 is enabled; each entry is the pin level held during the half-bit
interval that follows that tick. -/
def ticks (conv : Convention) : Nat → MState → List Bool
  | 0, _ => []
  | n + 1, s =>
    if s.tcbEnabled then
      (isrStep conv s).pin :: ticks conv n (isrStep conv s)
    else
      []

/-- The generated waveform from a state: the current pin level (held until
the first tick) followed by the levels after each tick.  Entry `2*k` is the
first half-bit level of bit period `k` and entry `2*k+1` its second half. -/
def waveform (conv : Convention) (s : MState) (n : Nat) : List Bool :=
  s.pin :: ticks conv n s

/-- Run up to `n` timer ticks and return the final state (the ISR only runs
while TCB0 is enabled). -/
def runSteps (conv : Convention) : Nat → MState → MState
  | 0, s => s
  | n + 1, s =>
    if s.tcbEnabled then runSteps conv n (isrStep conv s) else s

/-- Every consecutive half-bit pair of a level list differs, i.e. every bit
period laid out as (first half, second half) contains a mid-bit transition.
An unpaired trailing level is ignored. -/
def altPairs : List Bool → Bool
  | a :: b :: rest => (a != b) && altPairs rest
  | _ => true

/-- Modelled from the spec (P2 and the glossary definitions of the two
conventions): decode one bit period from its two half-bit levels.  A period
with no mid transition does not decode.  G.E. Thomas: logical 1 is a
high-to-low transition at the bit center (first half high); IEEE: logical 1
is a low-to-high transition (second half high). -/
def specDecodePeriod (conv : Convention) (fh sh : Bool) : Option Bool :=
  if fh = sh then none
  else
    match conv with
    | .geThomas => some fh
    | .ieee => some sh

/-- Modelled from the spec (P2): decode a flat list of half-bit levels,
two per bit period, failing on any period without a mid transition or on an
odd leftover level. -/
def specDecodeBits (conv : Convention) : List Bool → Option (List Bool)
  | [] => some []
  | [_] => none
  | fh :: sh :: rest =>
    match specDecodePeriod conv fh sh, specDecodeBits conv rest with
    | some b, some bs => some (b :: bs)
    | _, _ => none

/-- MSB-first value of a list of bits. -/
def bitsToByte (l : List Bool) : Nat :=
  l.foldl (fun a b => 2 * a + b.toNat) 0

/-- Group a bit list into bytes, MSB first, dropping an incomplete tail. -/
def bytesOfBits : List Bool → List Nat
  | b7 :: b6 :: b5 :: b4 :: b3 :: b2 :: b1 :: b0 :: rest =>
    bitsToByte [b7, b6, b5, b4, b3, b2, b1, b0] :: bytesOfBits rest
  | _ => []

/-- `#define BAUD_RATE 50000UL`. -/
def BAUD_RATE : Nat := 50000

/-- Initial value of the guard-loop counter in `main`:
`uint8_t i = 2048000 / BAUD_RATE` (C integer division, then the `uint8_t`
conversion). -/
def guard_loop_start : Nat := 2048000 / BAUD_RATE % 256

/-- Number of `_delay_us(250)` calls performed by the guard loop
`for (uint8_t i = ...; i > 0; i--)` when started at `i`. -/
def guard_delay_count : Nat → Nat
  | 0 => 0
  | i + 1 => guard_delay_count i + 1

/-- State after the G.E. Thomas build submits the 1-byte payload `[0x80]`
from the initial idle state. -/
def c1State : MState := (send_encoded_data (initState .geThomas) [0x80]).1

/-- Waveform of that packet (31 levels: the arm-time level plus the 30 ticks
before the completion branch disables TCB0). -/
def c1Wave : List Bool := waveform .geThomas c1State 32

/-- State after the G.E. Thomas build submits the 1-byte payload `[0x00]`
from the initial idle state. -/
def c2State : MState := (send_encoded_data (initState .geThomas) [0x00]).1

/-- That packet's waveform padded with the level the line holds after the
final tick (the rest level driven by the completion branch), giving the
full 16 bit periods of the 2-byte transmission. -/
def c2PaddedWave : List Bool :=
  waveform .geThomas c2State 32 ++ [Convention.geThomas.restLevel]

/-- A concrete state sitting on the completing data edge: data phase,
`bit_index = 0`, and the incremented byte index reaches the length. -/
def wrapEx : MState :=
  { initState .geThomas with clk := false, bitIndex := 0, byteIndex := 1,
                             length := 2, busy := true }

/-- Idle state produced by running the first packet (payload `[0x01]`) to
completion: TCB0 disabled by the ISR, busy cleared, pin at the rest level. -/
def c4Idle : MState :=
  runSteps .geThomas 64 (send_encoded_data (initState .geThomas) [0x01]).1

/-- Result of submitting `[0xAA]` from that between-packets idle state. -/
def c4After : MState × Nat := send_encoded_data c4Idle [0xAA]

/-- Result of submitting a 255-byte payload from the initial idle state. -/
def c5Result : MState × Nat :=
  send_encoded_data (initState .geThomas) (List.replicate 255 0x41)

/-- State after an accepted 255-byte submission. -/
def c7State : MState :=
  (send_encoded_data (initState .geThomas) (List.replicate 255 2)).1

/-- A busy state: the first packet has been accepted but not yet sent. -/
def busyEx : MState := (send_encoded_data (initState .geThomas) [1]).1

/-- A concrete mid-byte data-phase state: one clock tick into the `[0x00]`
packet, so `clk` is clear and `bit_index = 6`. -/
def dataMidEx : MState := isrStep .geThomas c2State

/-- A concrete byte-final but non-completing data-phase state: data phase
with `bit_index = 0` while further bytes remain queued, so the incremented
byte index stays below the length and the completion branch is not taken. -/
def dataLastEx : MState :=
  { initState .geThomas with clk := false, bitIndex := 0, byteIndex := 0,
                             length := 3, busy := true }

/-- Bits `k, k-1, ..., 0` of a byte value, most significant first. -/
def bitsDown (b : Nat) : Nat → List Bool
  | 0 => [b.testBit 0]
  | k + 1 => b.testBit (k + 1) :: bitsDown b k

/-- All bits, MSB first, of `r` consecutive buffer bytes starting at
index `i`. -/
def tailBits (buf : List Nat) : Nat → Nat → List Bool
  | _, 0 => []
  | i, r + 1 => bitsDown (buf.getD i 0) 7 ++ tailBits buf (i + 1) r

/-- The data bits the encoder has yet to consume from a state: bits
`bitIndex..0` of the current byte, then all bits of the remaining bytes up
to `transmit_buffer_length`. -/
def pendingBits (s : MState) : List Bool :=
  bitsDown (s.buffer.getD s.byteIndex 0) s.bitIndex ++
    tailBits s.buffer (s.byteIndex + 1) (s.length - (s.byteIndex + 1))

/-- Expected tick levels of the G.E. Thomas build from a clock-phase state
whose pin holds the current bit value `p`: the mid-bit toggle to `!p`, then
for each further pending bit its first half-level (equal to the bit under
this convention), except that on the final data edge the completion branch
overrides the pin with the rest level (low) and stops the timer, so the
last pending bit never reaches the line. -/
def geTicks (p : Bool) : List Bool → List Bool
  | [] => []
  | [_] => [!p, false]
  | b :: b2 :: rest => (!p) :: b :: geTicks b (b2 :: rest)
/-! Helper lemmas about the individual ISR branches and the tick trace. -/

theorem isrStep_clock (conv : Convention) (s : MState) (h : s.clk = true) :
    isrStep conv s = { s with clk := false, pin := !s.pin } := by
  simp [isrStep, h]

theorem isrStep_data_mid (conv : Convention) (s : MState)
    (hclk : s.clk = false) (hbit : s.bitIndex ≠ 0) :
    isrStep conv s =
      { s with pin := if nextBit s = s.prev then !s.pin else s.pin,
               bitIndex := s.bitIndex - 1, clk := true, prev := nextBit s } := by
  by_cases hnb : nextBit s = s.prev <;>
    simp [isrStep, hclk, hbit, hnb]

theorem isrStep_data_wrap (conv : Convention) (s : MState)
    (hclk : s.clk = false) (hbit : s.bitIndex = 0)
    (hlen : s.length ≤ (s.byteIndex + 1) % 256) :
    isrStep conv s =
      { s with pin := conv.restLevel, byteIndex := 0, bitIndex := 6,
               tcbEnabled := false, busy := false,
               clk := true, prev := nextBit s } := by
  by_cases hnb : nextBit s = s.prev <;>
    simp [isrStep, hclk, hbit, hlen, hnb]

theorem isrStep_data_nowrap (conv : Convention) (s : MState)
    (hclk : s.clk = false) (hbit : s.bitIndex = 0)
    (hlen : ¬ s.length ≤ (s.byteIndex + 1) % 256) :
    isrStep conv s =
      { s with pin := if nextBit s = s.prev then !s.pin else s.pin,
               byteIndex := (s.byteIndex + 1) % 256, bitIndex := 7,
               clk := true, prev := nextBit s } := by
  by_cases hnb : nextBit s = s.prev <;>
    simp [isrStep, hclk, hbit, hlen, hnb]

theorem isrStep_clk_of_data (conv : Convention) (s : MState) (h : s.clk = false) :
    (isrStep conv s).clk = true := by
  simp [isrStep, h]

theorem ticks_succ (conv : Convention) (n : Nat) (s : MState) :
    ticks conv (n + 1) s =
      if s.tcbEnabled then (isrStep conv s).pin :: ticks conv n (isrStep conv s)
      else [] := rfl

theorem altPairs_run (conv : Convention) :
    ∀ n : Nat,
      (∀ s : MState, s.clk = true → altPairs (waveform conv s n) = true)
      ∧ (∀ s : MState, s.clk = false → altPairs (ticks conv n s) = true) := by
  intro n
  induction n with
  | zero =>
      refine ⟨fun s _ => rfl, fun s _ => rfl⟩
  | succ n ih =>
      refine ⟨fun s hs => ?_, fun s hs => ?_⟩
      · by_cases he : s.tcbEnabled
        · rw [waveform, ticks_succ, if_pos he, isrStep_clock conv s hs]
          simp only [altPairs]
          have htail : altPairs (ticks conv n { s with clk := false, pin := !s.pin }) = true :=
            ih.2 _ rfl
          simp [htail]
        · rw [waveform, ticks_succ, if_neg he]
          rfl
      · by_cases he : s.tcbEnabled
        · rw [ticks_succ, if_pos he]
          exact ih.1 (isrStep conv s) (isrStep_clk_of_data conv s hs)
        · rw [ticks_succ, if_neg he]
          rfl

/-- C1.  The claim fails on the code: under the G.E. Thomas build, submitting
the payload `[0x80]` from the initial idle state produces a waveform whose
first byte decodes (with the spec's inverse rule) to `0x00`, not `0x80`:
`send_encoded_data` copies the payload starting at `transmit_buffer[0]`,
overwriting the `0x55` framing byte, while the pre-emitted top bit of the
first byte is fixed by the arm-time pin level and the `prev` seed, so bit 7
of the submitted byte is never transmitted. -/
theorem c1_decode_first_byte_wrong :
    c1State.buffer.getD 0 0 = 0x80 ∧
    (specDecodeBits .geThomas (c1Wave.take 16)).map bytesOfBits = some [0x00] ∧
    ¬ (specDecodeBits .geThomas (c1Wave.take 16)).map bytesOfBits = some [0x80] := by
  decide

/-- C2, counterexample.  The claim states that every bit period of the
generated waveform contains the mandatory mid-bit clock transition.  For the
valid input `[0x00]` under the G.E. Thomas convention, the padded waveform
of the completed packet (16 bit periods, two half-bit levels each) has a
bit period with no transition: the completion branch runs on the final data
edge and disables TCB0, so the final bit period's clock tick never occurs
and the line sits flat at the rest level. -/
theorem c2_counterexample : altPairs c2PaddedWave = false := by decide

/-- C2, amended.  On every clock-phase step the pin is unconditionally
toggled and `clk` cleared with no other state change; on every data-edge
step except the packet-completing one — mid-byte edges and byte-final edges
with further bytes queued alike — the pin is toggled iff the data bit
equals `prev`; the packet-completing data edge overrides the pin with the
rest level; and every bit period whose clock tick occurs (all but the
truncated final period of a packet) contains the mid-bit transition:
consecutive half-bit pairs of any generated waveform always differ. -/
theorem c2_amended :
    (∀ (conv : Convention) (s : MState), s.clk = true →
        isrStep conv s = { s with clk := false, pin := !s.pin }) ∧
    (∀ (conv : Convention) (s : MState), s.clk = false →
        ¬ (s.bitIndex = 0 ∧ s.length ≤ (s.byteIndex + 1) % 256) →
        (isrStep conv s).pin = if nextBit s = s.prev then !s.pin else s.pin) ∧
    (∀ (conv : Convention) (s : MState), s.clk = false → s.bitIndex = 0 →
        s.length ≤ (s.byteIndex + 1) % 256 → (isrStep conv s).pin = conv.restLevel) ∧
    (∀ (conv : Convention) (s : MState) (n : Nat), s.clk = true →
        altPairs (waveform conv s n) = true) := by
  refine ⟨isrStep_clock, ?_, ?_, ?_⟩
  · intro conv s hclk hnc
    by_cases hbit : s.bitIndex = 0
    · have hlen : ¬ s.length ≤ (s.byteIndex + 1) % 256 := fun h => hnc ⟨hbit, h⟩
      rw [isrStep_data_nowrap conv s hclk hbit hlen]
    · rw [isrStep_data_mid conv s hclk hbit]
  · intro conv s hclk hbit hlen
    rw [isrStep_data_wrap conv s hclk hbit hlen]
  · intro conv s n h
    exact (altPairs_run conv n).1 s h

/-- C2, witness: the amended statement instantiated at concrete states — the
armed state for payload `[0x00]`, whose waveform satisfies the alternation
property, plus concrete clock-phase, mid-byte, byte-final non-completing
and packet-completing data-phase states. -/
theorem c2_amended_witness :
    isrStep .geThomas c2State = { c2State with clk := false, pin := !c2State.pin } ∧
    (isrStep .geThomas dataMidEx).pin =
      (if nextBit dataMidEx = dataMidEx.prev then !dataMidEx.pin else dataMidEx.pin) ∧
    (isrStep .geThomas dataLastEx).pin =
      (if nextBit dataLastEx = dataLastEx.prev then !dataLastEx.pin else dataLastEx.pin) ∧
    (isrStep .geThomas wrapEx).pin = Convention.geThomas.restLevel ∧
    altPairs (waveform .geThomas c2State 32) = true := by
  refine ⟨c2_amended.1 .geThomas c2State (by decide), ?_, ?_, ?_, ?_⟩
  · exact c2_amended.2.1 .geThomas dataMidEx (by decide) (by decide)
  · exact c2_amended.2.1 .geThomas dataLastEx (by decide) (by decide)
  · exact c2_amended.2.2.1 .geThomas wrapEx (by decide) (by decide) (by decide)
  · exact c2_amended.2.2.2 .geThomas c2State 32 (by decide)

/-- C3.  A data-edge step that consumes the last bit of the buffer —
`bit_index` passes 0 and the incremented byte index reaches
`transmit_buffer_length` — drives the pin to the convention's rest level,
resets the byte index to 0 and the bit index to 6, disables TCB0 and clears
`sending_in_progress` in that same step (it also sets `clk` and records the
consumed bit in `prev`, as every data edge does). -/
theorem c3_wrap_step (conv : Convention) (s : MState)
    (hclk : s.clk = false) (hbit : s.bitIndex = 0)
    (hlen : s.length ≤ (s.byteIndex + 1) % 256) :
    isrStep conv s =
      { s with pin := conv.restLevel, byteIndex := 0, bitIndex := 6,
               tcbEnabled := false, busy := false,
               clk := true, prev := nextBit s } :=
  isrStep_data_wrap conv s hclk hbit hlen

/-- C3, witness: the completing data edge evaluated on a concrete state. -/
theorem c3_wrap_step_witness :
    wrapEx.clk = false ∧ wrapEx.bitIndex = 0 ∧
    wrapEx.length ≤ (wrapEx.byteIndex + 1) % 256 ∧
    isrStep .geThomas wrapEx =
      { wrapEx with pin := Convention.geThomas.restLevel, byteIndex := 0,
                    bitIndex := 6, tcbEnabled := false, busy := false,
                    clk := true, prev := nextBit wrapEx } :=
  ⟨by decide, by decide, by decide,
   c3_wrap_step .geThomas wrapEx (by decide) (by decide) (by decide)⟩

/-- C4, counterexample.  The claim says an accepted submission copies the
payload in after the framing byte, leaving `0x55` at index 0, arms the
timing source and sets the pin.  Submitting `[0xAA]` from the idle state
left by a completed packet is accepted, yet index 0 of the buffer now holds
`0xAA` (the framing byte is overwritten, the payload is not shifted) and
TCB0 is still disabled (nothing in `send_encoded_data` arms it). -/
theorem c4_counterexample :
    c4After.2 = 1 ∧ c4After.1.buffer.getD 0 0 = 0xAA ∧
    ¬ c4After.1.buffer.getD 0 0 = 0x55 ∧ c4After.1.tcbEnabled = false := by
  decide

/-- C4, amended.  A submission accepted while idle copies the payload into
the buffer starting at index 0 — its first `count` bytes become the payload
and the bytes from `count` on are untouched, so the framing byte at index 0
is overwritten — sets the length to `count + 1` (mod 256), raises the busy
flag and returns 1; it leaves the pin, the TCB0 enable bit and all encoder
statics unchanged (arming is done elsewhere, by `TCB0_init` and the guarded
re-enable in `main`). -/
theorem c4_amended (s : MState) (p : List Nat) (h : s.busy = false) :
    (send_encoded_data s p).2 = 1 ∧
    (send_encoded_data s p).1.busy = true ∧
    (send_encoded_data s p).1.length = (p.length + 1) % 256 ∧
    (send_encoded_data s p).1.buffer.take p.length = p ∧
    (send_encoded_data s p).1.buffer.drop p.length = s.buffer.drop p.length ∧
    (send_encoded_data s p).1.pin = s.pin ∧
    (send_encoded_data s p).1.tcbEnabled = s.tcbEnabled ∧
    (send_encoded_data s p).1.prev = s.prev ∧
    (send_encoded_data s p).1.clk = s.clk ∧
    (send_encoded_data s p).1.byteIndex = s.byteIndex ∧
    (send_encoded_data s p).1.bitIndex = s.bitIndex := by
  refine ⟨?_, ?_, ?_, ?_, ?_, ?_, ?_, ?_, ?_, ?_, ?_⟩ <;>
    simp [send_encoded_data, h, List.take_left, List.drop_left]

/-- C4, witness: the amended statement instantiated at the concrete
between-packets idle state and the payload `[0xAA]`. -/
theorem c4_amended_witness :
    c4Idle.busy = false ∧
    ((send_encoded_data c4Idle [0xAA]).2 = 1 ∧
     (send_encoded_data c4Idle [0xAA]).1.busy = true ∧
     (send_encoded_data c4Idle [0xAA]).1.length = (List.length [0xAA] + 1) % 256 ∧
     (send_encoded_data c4Idle [0xAA]).1.buffer.take (List.length [0xAA]) = [0xAA] ∧
     (send_encoded_data c4Idle [0xAA]).1.buffer.drop (List.length [0xAA]) =
       c4Idle.buffer.drop (List.length [0xAA]) ∧
     (send_encoded_data c4Idle [0xAA]).1.pin = c4Idle.pin ∧
     (send_encoded_data c4Idle [0xAA]).1.tcbEnabled = c4Idle.tcbEnabled ∧
     (send_encoded_data c4Idle [0xAA]).1.prev = c4Idle.prev ∧
     (send_encoded_data c4Idle [0xAA]).1.clk = c4Idle.clk ∧
     (send_encoded_data c4Idle [0xAA]).1.byteIndex = c4Idle.byteIndex ∧
     (send_encoded_data c4Idle [0xAA]).1.bitIndex = c4Idle.bitIndex) :=
  ⟨by decide, c4_amended c4Idle [0xAA] (by decide)⟩

set_option maxRecDepth 4096 in
/-- C5.  The claim (reject oversized payloads) is the spec's stated
constraint, but `send_encoded_data` performs no size check at all: a
255-byte payload submitted while idle is accepted — the function returns 1,
copies all 255 bytes, raises the busy flag — and the `uint8_t` length
becomes `(255 + 1) % 256 = 0`, so the claim's required rejection and
unchanged state do not happen. -/
theorem c5_oversized_accepted :
    c5Result.2 = 1 ∧ c5Result.1.busy = true ∧ c5Result.1.length = 0 ∧
    c5Result.1.buffer.getD 0 0 = 0x41 := by
  decide

/-- C6.  A submission made while `sending_in_progress` is set is rejected:
the function returns 0 and the state — buffer, length, busy flag and
everything else — is exactly unchanged. -/
theorem c6_busy_reject (s : MState) (p : List Nat) (h : s.busy = true) :
    send_encoded_data s p = (s, 0) := by
  simp [send_encoded_data, h]

/-- C6, witness: rejecting a second submission while the first packet is in
flight. -/
theorem c6_busy_reject_witness :
    busyEx.busy = true ∧ send_encoded_data busyEx [2] = (busyEx, 0) :=
  ⟨by decide, c6_busy_reject busyEx [2] (by decide)⟩

set_option maxRecDepth 4096 in
/-- C7, counterexample.  The claim says the invariant `byteIndex < length`
is established by every accepted submit, for any accepted byte count.  An
accepted 255-byte submission from the initial idle state leaves the machine
busy with `transmit_buffer_length = (255 + 1) % 256 = 0`, so
`byteIndex < length` fails while busy is set. -/
theorem c7_counterexample :
    c7State.busy = true ∧ ¬ c7State.byteIndex < c7State.length := by
  decide

/-- C7, amended.  `byteIndex < length` whenever busy holds: it is
established by every accepted submit of at most 254 bytes (a 255-byte count
wraps the `uint8_t` length to 0 and violates it), it is preserved by every
encoder step, and the wraparound step past the last byte resets the byte
index to 0 and the bit index to 6 and clears busy. -/
theorem c7_amended :
    (∀ (s : MState) (p : List Nat), s.busy = false → s.byteIndex = 0 →
        p.length ≤ 254 →
        (send_encoded_data s p).1.busy = true ∧
        (send_encoded_data s p).1.byteIndex < (send_encoded_data s p).1.length) ∧
    (∀ (conv : Convention) (s : MState), (s.busy = true → s.byteIndex < s.length) →
        (isrStep conv s).busy = true →
        (isrStep conv s).byteIndex < (isrStep conv s).length) ∧
    (∀ (conv : Convention) (s : MState), s.clk = false → s.bitIndex = 0 →
        s.length ≤ (s.byteIndex + 1) % 256 →
        (isrStep conv s).busy = false ∧ (isrStep conv s).byteIndex = 0 ∧
        (isrStep conv s).bitIndex = 6) := by
  refine ⟨?_, ?_, ?_⟩
  · intro s p hbusy hidx hlen
    have h256 : (p.length + 1) % 256 = p.length + 1 :=
      Nat.mod_eq_of_lt (by omega)
    simp [send_encoded_data, hbusy, h256, hidx]
  · intro conv s hinv hbusy
    by_cases hclk : s.clk = true
    · rw [isrStep_clock conv s hclk] at hbusy ⊢
      exact hinv hbusy
    · replace hclk : s.clk = false := by revert hclk; cases s.clk <;> simp
      by_cases hbit : s.bitIndex = 0
      · by_cases hlen : s.length ≤ (s.byteIndex + 1) % 256
        · rw [isrStep_data_wrap conv s hclk hbit hlen] at hbusy
          simp at hbusy
        · rw [isrStep_data_nowrap conv s hclk hbit hlen]
          show (s.byteIndex + 1) % 256 < s.length
          omega
      · rw [isrStep_data_mid conv s hclk hbit] at hbusy ⊢
        exact hinv hbusy
  · intro conv s hclk hbit hlen
    rw [isrStep_data_wrap conv s hclk hbit hlen]
    exact ⟨rfl, rfl, rfl⟩

/-- C7, witness: the amended statement instantiated — a 1-byte accepted
submission establishes the invariant, a concrete clock step preserves it,
and the concrete completing data edge resets the indices and clears busy. -/
theorem c7_amended_witness :
    ((send_encoded_data (initState .geThomas) [1]).1.busy = true ∧
     (send_encoded_data (initState .geThomas) [1]).1.byteIndex <
       (send_encoded_data (initState .geThomas) [1]).1.length) ∧
    ((isrStep .geThomas busyEx).busy = true →
     (isrStep .geThomas busyEx).byteIndex < (isrStep .geThomas busyEx).length) ∧
    ((isrStep .geThomas wrapEx).busy = false ∧
     (isrStep .geThomas wrapEx).byteIndex = 0 ∧
     (isrStep .geThomas wrapEx).bitIndex = 6) :=
  ⟨c7_amended.1 (initState .geThomas) [1] (by decide) (by decide) (by decide),
   c7_amended.2.1 .geThomas busyEx (fun _ => by decide),
   c7_amended.2.2 .geThomas wrapEx (by decide) (by decide) (by decide)⟩

/-- C8, counterexample.  The claim says the guard loop performs
`ceil(2048000 / targetBitRate)` delay increments; at the configured
`BAUD_RATE = 50000` the loop counter starts at `2048000 / 50000` under C
integer division, i.e. 40 iterations, while the ceiling is 41. -/
theorem c8_counterexample :
    ¬ guard_delay_count guard_loop_start = (2048000 + BAUD_RATE - 1) / BAUD_RATE := by
  decide

/-- C8, amended.  After a packet completes, the guard loop in `main`
performs `2048000 / targetBitRate` fixed `_delay_us(250)` increments —
integer division rounding down, which is 40 at the configured 50000 baud —
before TCB0 is re-enabled. -/
theorem c8_amended :
    guard_delay_count guard_loop_start = 2048000 / BAUD_RATE ∧
    guard_delay_count guard_loop_start = 40 := by
  decide

/-- C10.  The `prev` static receives the convention seed exactly once, in
its initializer at program start; every clock-phase step leaves it alone,
every data-edge step — including the packet-completion branch, which does
not restore the seed — overwrites it with the bit just consumed, and
`send_encoded_data` never touches it.  Consequently the first data-edge
comparison of a later packet uses the final bit consumed for the preceding
packet: concretely, after the IEEE build finishes its first packet
(payload `[3]`), `prev` is 0 while the IEEE seed is 1. -/
theorem c10_prev_seeding :
    (∀ conv : Convention, (initState conv).prev = conv.prevSeed) ∧
    (∀ (conv : Convention) (s : MState), s.clk = true →
        (isrStep conv s).prev = s.prev) ∧
    (∀ (conv : Convention) (s : MState), s.clk = false →
        (isrStep conv s).prev = nextBit s) ∧
    (∀ (s : MState) (p : List Nat), (send_encoded_data s p).1.prev = s.prev) ∧
    (runSteps .ieee 40 (send_encoded_data (initState .ieee) [3]).1).prev = false ∧
    Convention.ieee.prevSeed = true := by
  refine ⟨fun conv => rfl, ?_, ?_, ?_, by decide, rfl⟩
  · intro conv s h
    rw [isrStep_clock conv s h]
  · intro conv s h
    simp [isrStep, h]
  · intro s p
    by_cases h : s.busy = false <;> simp [send_encoded_data, h]

/-- C10, witness: the seeding and update facts instantiated at concrete
states of the shipped G.E. Thomas build. -/
theorem c10_prev_seeding_witness :
    (initState .geThomas).prev = Convention.geThomas.prevSeed ∧
    (isrStep .geThomas busyEx).prev = busyEx.prev ∧
    (isrStep .geThomas wrapEx).prev = nextBit wrapEx ∧
    (send_encoded_data (initState .geThomas) [7]).1.prev =
      (initState .geThomas).prev :=
  ⟨c10_prev_seeding.1 .geThomas,
   c10_prev_seeding.2.1 .geThomas busyEx (by decide),
   c10_prev_seeding.2.2.1 .geThomas wrapEx (by decide),
   c10_prev_seeding.2.2.2.1 (initState .geThomas) [7]⟩

/-! Positive counterpart of the defect analysis: on the shipped G.E. Thomas
build the per-tick state machine does realize a correct Manchester waveform
for every bit it consumes, and decoding that waveform recovers the
transmitted bytes wherever the framing-byte overwrite and the final-bit
truncation do not interfere. -/

theorem bitsDown_ne_nil (b : Nat) (k : Nat) : bitsDown b k ≠ [] := by
  cases k <;> simp [bitsDown]

theorem pendingBits_ne_nil (s : MState) : pendingBits s ≠ [] := by
  simp only [pendingBits, ne_eq, List.append_eq_nil]
  intro h
  exact bitsDown_ne_nil _ _ h.1

theorem bitsDown_length (b : Nat) : ∀ k, (bitsDown b k).length = k + 1
  | 0 => rfl
  | k + 1 => by simp [bitsDown, bitsDown_length b k]

theorem tailBits_length (buf : List Nat) : ∀ (r i : Nat), (tailBits buf i r).length = 8 * r
  | 0, _ => rfl
  | r + 1, i => by
    simp [tailBits, bitsDown_length, tailBits_length buf r (i + 1)]
    omega

theorem ticks_disabled (conv : Convention) (n : Nat) (s : MState)
    (h : s.tcbEnabled = false) : ticks conv n s = [] := by
  cases n with
  | zero => rfl
  | succ n => rw [ticks_succ, if_neg (by simp [h])]

theorem togglePin (b p : Bool) : (if b = p then p else !p) = b := by
  cases b <;> cases p <;> rfl

theorem bitsDown_zero (b : Nat) : bitsDown b 0 = [b.testBit 0] := rfl

theorem bitsDown_succ (b k : Nat) :
    bitsDown b (k + 1) = b.testBit (k + 1) :: bitsDown b k := rfl

theorem tailBits_succ (buf : List Nat) (i r : Nat) :
    tailBits buf i (r + 1) = bitsDown (buf.getD i 0) 7 ++ tailBits buf (i + 1) r := rfl

theorem geTicks_cons_of_ne_nil (p b : Bool) (l : List Bool) (h : l ≠ []) :
    geTicks p (b :: l) = (!p) :: b :: geTicks b l := by
  cases l with
  | nil => exact absurd rfl h
  | cons x xs => rfl

theorem geThomas_double_mid (s : MState) (hclk : s.clk = true) (hpin : s.pin = s.prev)
    (hbit : s.bitIndex ≠ 0) :
    isrStep .geThomas (isrStep .geThomas s) =
      { s with pin := nextBit s, bitIndex := s.bitIndex - 1,
               clk := true, prev := nextBit s } := by
  rw [isrStep_clock .geThomas s hclk,
      isrStep_data_mid .geThomas { s with clk := false, pin := !s.pin } rfl hbit]
  simp [nextBit, hpin, togglePin]

theorem geThomas_double_nowrap (s : MState) (hclk : s.clk = true) (hpin : s.pin = s.prev)
    (hbit : s.bitIndex = 0) (hlen : ¬ s.length ≤ (s.byteIndex + 1) % 256) :
    isrStep .geThomas (isrStep .geThomas s) =
      { s with pin := nextBit s, byteIndex := (s.byteIndex + 1) % 256, bitIndex := 7,
               clk := true, prev := nextBit s } := by
  rw [isrStep_clock .geThomas s hclk,
      isrStep_data_nowrap .geThomas { s with clk := false, pin := !s.pin } rfl hbit hlen]
  simp [nextBit, hpin, togglePin]

theorem geThomas_double_wrap (s : MState) (hclk : s.clk = true)
    (hbit : s.bitIndex = 0) (hlen : s.length ≤ (s.byteIndex + 1) % 256) :
    isrStep .geThomas (isrStep .geThomas s) =
      { s with pin := false, byteIndex := 0, bitIndex := 6, tcbEnabled := false,
               busy := false, clk := true, prev := nextBit s } := by
  rw [isrStep_clock .geThomas s hclk,
      isrStep_data_wrap .geThomas { s with clk := false, pin := !s.pin } rfl hbit hlen]
  simp [nextBit, Convention.restLevel]

theorem geThomas_ticks_eq :
    ∀ (n : Nat) (s : MState), s.clk = true → s.tcbEnabled = true →
      s.pin = s.prev → s.byteIndex < s.length → s.length ≤ 255 →
      2 * (pendingBits s).length ≤ n →
      ticks .geThomas n s = geTicks s.prev (pendingBits s) := by
  intro n
  induction n using Nat.strong_induction_on with
  | _ n ih =>
  intro s hclk hen hpin hidx hlen hn
  have hm : 1 ≤ (pendingBits s).length := by
    cases hp : pendingBits s with
    | nil => exact absurd hp (pendingBits_ne_nil s)
    | cons a l => simp
  obtain ⟨n2, rfl⟩ : ∃ n2, n = n2 + 2 := ⟨n - 2, by omega⟩
  have hmod : (s.byteIndex + 1) % 256 = s.byteIndex + 1 := Nat.mod_eq_of_lt (by omega)
  have hen1 : (isrStep .geThomas s).tcbEnabled = true := by
    rw [isrStep_clock .geThomas s hclk]; exact hen
  have hpin1 : (isrStep .geThomas s).pin = !s.pin := by
    rw [isrStep_clock .geThomas s hclk]
  have e1 : ticks .geThomas (n2 + 2) s =
      (isrStep .geThomas s).pin ::
        (isrStep .geThomas (isrStep .geThomas s)).pin ::
          ticks .geThomas n2 (isrStep .geThomas (isrStep .geThomas s)) := by
    rw [ticks_succ, if_pos hen, ticks_succ, if_pos hen1]
  rcases Nat.eq_zero_or_pos s.bitIndex with hbit | hbitpos
  · rcases Nat.lt_or_ge (s.byteIndex + 1) s.length with hwrap | hwrap
    · -- byte boundary, next byte exists
      have hd := geThomas_double_nowrap s hclk hpin hbit (by rw [hmod]; omega)
      have hsplit : s.length - (s.byteIndex + 1) = (s.length - (s.byteIndex + 2)) + 1 := by
        omega
      have h11 : s.byteIndex + 1 + 1 = s.byteIndex + 2 := by omega
      have hpendt : pendingBits s =
          nextBit s :: pendingBits (isrStep .geThomas (isrStep .geThomas s)) := by
        rw [hd]
        simp only [pendingBits, nextBit, hbit, hmod, h11]
        rw [hsplit, tailBits_succ, bitsDown_zero]
        simp [h11]
      have hlen2 : (pendingBits s).length =
          (pendingBits (isrStep .geThomas (isrStep .geThomas s))).length + 1 := by
        rw [hpendt]; rfl
      rw [hd] at hlen2
      rw [e1, hpin1, hpendt, hd,
          geTicks_cons_of_ne_nil _ _ _ (pendingBits_ne_nil _), hpin]
      exact congrArg (List.cons _) (congrArg (List.cons _)
        (ih n2 (by omega) _ rfl hen rfl
          (show (s.byteIndex + 1) % 256 < s.length by rw [hmod]; omega)
          hlen (by omega)))
    · -- byte boundary, buffer exhausted: completing data edge
      have hd := geThomas_double_wrap s hclk hbit (by rw [hmod]; omega)
      have hpend : pendingBits s = [nextBit s] := by
        simp only [pendingBits, nextBit, hbit,
                   show s.length - (s.byteIndex + 1) = 0 from by omega,
                   tailBits, bitsDown_zero, List.append_nil]
      have hdis : ticks .geThomas n2 (isrStep .geThomas (isrStep .geThomas s)) = [] :=
        ticks_disabled .geThomas n2 _ (by rw [hd])
      rw [e1, hpin1, hpend, hdis, hd, hpin]
      rfl
  · -- inside a byte
    have hd := geThomas_double_mid s hclk hpin (by omega)
    obtain ⟨k, hk⟩ : ∃ k, s.bitIndex = k + 1 := ⟨s.bitIndex - 1, by omega⟩
    have hpendt : pendingBits s =
        nextBit s :: pendingBits (isrStep .geThomas (isrStep .geThomas s)) := by
      rw [hd]
      simp only [pendingBits, nextBit, hk, Nat.add_sub_cancel, bitsDown_succ,
                 List.cons_append]
    have hlen2 : (pendingBits s).length =
        (pendingBits (isrStep .geThomas (isrStep .geThomas s))).length + 1 := by
      rw [hpendt]; rfl
    rw [hd] at hlen2
    rw [e1, hpin1, hpendt, hd,
        geTicks_cons_of_ne_nil _ _ _ (pendingBits_ne_nil _), hpin]
    exact congrArg (List.cons _) (congrArg (List.cons _)
      (ih n2 (by omega) _ rfl hen rfl hidx hlen (by omega)))

theorem specDecodePeriod_ge_self (p : Bool) :
    specDecodePeriod .geThomas p (!p) = some p := by
  cases p <;> rfl

theorem specDecode_geTicks (bs : List Bool) :
    ∀ p : Bool, bs ≠ [] →
      specDecodeBits .geThomas ((p :: geTicks p bs).take (2 * bs.length)) =
        some (p :: bs.dropLast) := by
  induction bs with
  | nil => intro p h; exact absurd rfl h
  | cons b bs ih =>
    intro p _
    cases bs with
    | nil => cases p <;> cases b <;> rfl
    | cons b2 bs2 =>
      rw [geTicks_cons_of_ne_nil p b (b2 :: bs2) (by simp)]
      have e : 2 * ((b :: b2 :: bs2).length) = 2 * ((b2 :: bs2).length) + 1 + 1 := by
        simp [List.length_cons]; omega
      rw [e]
      simp only [List.take_succ_cons]
      have hdec : specDecodeBits .geThomas
          (p :: (!p) :: ((b :: geTicks b (b2 :: bs2)).take (2 * ((b2 :: bs2)).length))) =
          match specDecodePeriod .geThomas p (!p),
                specDecodeBits .geThomas
                  ((b :: geTicks b (b2 :: bs2)).take (2 * ((b2 :: bs2)).length)) with
          | some x, some xs => some (x :: xs)
          | _, _ => none := rfl
      rw [hdec, specDecodePeriod_ge_self, ih b (by simp)]
      simp [List.dropLast]

theorem bitsToByte_foldl (l : List Bool) :
    ∀ a : Nat, l.foldl (fun acc b => 2 * acc + b.toNat) a =
      a * 2 ^ l.length + bitsToByte l := by
  induction l with
  | nil => intro a; simp [bitsToByte]
  | cons x xs ih =>
    intro a
    show xs.foldl _ (2 * a + x.toNat) = a * 2 ^ (xs.length + 1) + bitsToByte (x :: xs)
    rw [ih (2 * a + x.toNat),
        show bitsToByte (x :: xs) = xs.foldl (fun acc b => 2 * acc + b.toNat) (2 * 0 + x.toNat)
          from rfl,
        ih (2 * 0 + x.toNat)]
    ring

theorem testBit_toNat (n k : Nat) : (n.testBit k).toNat = n / 2 ^ k % 2 := by
  rw [Nat.testBit_to_div_mod]
  rcases Nat.mod_two_eq_zero_or_one (n / 2 ^ k) with h | h <;> simp [h]

theorem bitsToByte_bitsDown (b : Nat) : ∀ k, bitsToByte (bitsDown b k) = b % 2 ^ (k + 1) := by
  intro k
  induction k with
  | zero =>
    show bitsToByte [b.testBit 0] = b % 2 ^ 1
    rw [show bitsToByte [b.testBit 0] = 2 * 0 + (b.testBit 0).toNat from rfl, testBit_toNat]
    simp
  | succ k ih =>
    rw [bitsDown_succ,
        show bitsToByte (b.testBit (k + 1) :: bitsDown b k) =
          (bitsDown b k).foldl (fun acc c => 2 * acc + c.toNat)
            (2 * 0 + (b.testBit (k + 1)).toNat) from rfl,
        bitsToByte_foldl, ih, bitsDown_length, testBit_toNat]
    rw [show (2 : Nat) ^ (k + 1 + 1) = 2 ^ (k + 1) * 2 from pow_succ 2 (k + 1), Nat.mod_mul]
    ring

theorem bytesOfBits_cons8 (b7 b6 b5 b4 b3 b2 b1 b0 : Bool) (rest : List Bool) :
    bytesOfBits (b7 :: b6 :: b5 :: b4 :: b3 :: b2 :: b1 :: b0 :: rest) =
      bitsToByte [b7, b6, b5, b4, b3, b2, b1, b0] :: bytesOfBits rest := rfl

theorem bitsDown_seven (b : Nat) :
    bitsDown b 7 = b.testBit 7 :: b.testBit 6 :: b.testBit 5 :: b.testBit 4 ::
      b.testBit 3 :: b.testBit 2 :: b.testBit 1 :: [b.testBit 0] := rfl

theorem bytesOfBits_bitsDown7_append (b : Nat) (rest : List Bool) :
    bytesOfBits (bitsDown b 7 ++ rest) = b % 256 :: bytesOfBits rest := by
  rw [bitsDown_seven]
  show bytesOfBits (b.testBit 7 :: b.testBit 6 :: b.testBit 5 :: b.testBit 4 ::
    b.testBit 3 :: b.testBit 2 :: b.testBit 1 :: b.testBit 0 :: rest) = _
  rw [bytesOfBits_cons8,
      show ([b.testBit 7, b.testBit 6, b.testBit 5, b.testBit 4, b.testBit 3,
             b.testBit 2, b.testBit 1, b.testBit 0] : List Bool) = bitsDown b 7 from rfl,
      bitsToByte_bitsDown]
  norm_num

theorem bytesOfBits_bitsDown7_dropLast (b : Nat) :
    bytesOfBits ((bitsDown b 7).dropLast) = [] := rfl

theorem bytesOfBits_tailBits (buf : List Nat) :
    ∀ (r i : Nat), i + r ≤ buf.length → ∀ rest : List Bool,
      bytesOfBits (tailBits buf i r ++ rest) =
        ((buf.drop i).take r).map (· % 256) ++ bytesOfBits rest := by
  intro r
  induction r with
  | zero => intro i _ rest; simp [tailBits]
  | succ r ih =>
    intro i hi rest
    have hlt : i < buf.length := by omega
    rw [tailBits_succ, List.append_assoc, bytesOfBits_bitsDown7_append,
        List.getD_eq_getElem buf 0 hlt, ih (i + 1) (by omega) rest,
        List.drop_eq_getElem_cons hlt, List.take_succ_cons, List.map_cons,
        List.cons_append]

theorem pendingBits_length (s : MState) :
    (pendingBits s).length = s.bitIndex + 1 + 8 * (s.length - (s.byteIndex + 1)) := by
  simp [pendingBits, List.length_append, bitsDown_length, tailBits_length]

theorem tailBits_snoc (buf : List Nat) :
    ∀ (r i : Nat), tailBits buf i (r + 1) =
      tailBits buf i r ++ bitsDown (buf.getD (i + r) 0) 7 := by
  intro r
  induction r with
  | zero => intro i; simp [tailBits]
  | succ r ih =>
    intro i
    rw [tailBits_succ buf i (r + 1), ih (i + 1), tailBits_succ buf i r, List.append_assoc,
        show i + 1 + r = i + (r + 1) from by omega]

theorem bitsToByte_false_cons (l : List Bool) :
    bitsToByte (false :: l) = bitsToByte l := by
  show l.foldl _ (2 * 0 + (false : Bool).toNat) = l.foldl _ 0
  norm_num

theorem bitsDown_six (b : Nat) :
    bitsDown b 6 = b.testBit 6 :: b.testBit 5 :: b.testBit 4 ::
      b.testBit 3 :: b.testBit 2 :: b.testBit 1 :: [b.testBit 0] := rfl

theorem bytesOfBits_head_append (b : Nat) (rest : List Bool) :
    bytesOfBits ((false :: bitsDown b 6) ++ rest) = b % 128 :: bytesOfBits rest := by
  rw [bitsDown_six]
  show bytesOfBits (false :: b.testBit 6 :: b.testBit 5 :: b.testBit 4 ::
    b.testBit 3 :: b.testBit 2 :: b.testBit 1 :: b.testBit 0 :: rest) = _
  rw [bytesOfBits_cons8,
      show ([false, b.testBit 6, b.testBit 5, b.testBit 4, b.testBit 3,
             b.testBit 2, b.testBit 1, b.testBit 0] : List Bool) =
        false :: bitsDown b 6 from rfl,
      bitsToByte_false_cons, bitsToByte_bitsDown]
  norm_num

theorem map_mod256_eq_self : ∀ l : List Nat, (∀ b ∈ l, b < 256) →
    l.map (· % 256) = l := by
  intro l hl
  induction l with
  | nil => rfl
  | cons x xs ih =>
    simp only [List.map_cons, Nat.mod_eq_of_lt (hl x (by simp))]
    rw [ih (fun b hb => hl b (by simp [hb]))]

/-- Round-trip correctness of what the encoder actually transmits in the
shipped G.E. Thomas build: for any nonempty payload of at most 254 bytes
whose first byte is below 0x80, decoding the generated waveform over the
complete bit periods recovers the payload exactly.  (Bit 7 of the first
byte is represented only by the arm-time pin level, which always encodes 0,
hence the bound on the first byte; the trailing stale byte contributes 7
further bits that never form a complete byte; the truncated final bit
period is excluded by the `take`.) -/
theorem geThomas_payload_roundtrip (p : List Nat) (hne : p ≠ [])
    (hlen : p.length ≤ 254) (hbytes : ∀ b ∈ p, b < 256) (hhead : p.getD 0 0 < 128) :
    (specDecodeBits .geThomas
        ((waveform .geThomas (send_encoded_data (initState .geThomas) p).1
            (16 * p.length + 16)).take (2 * (8 * p.length + 7)))).map bytesOfBits =
      some p := by
  have hcount : 1 ≤ p.length := List.length_pos.mpr hne
  have hmod : (p.length + 1) % 256 = p.length + 1 := Nat.mod_eq_of_lt (by omega)
  have hsp : (send_encoded_data (initState .geThomas) p).1 =
      { buffer := p ++ (0x55 :: List.replicate 254 0).drop p.length,
        length := (p.length + 1) % 256, busy := true, pin := false, prev := false,
        clk := true, byteIndex := 0, bitIndex := 6, tcbEnabled := true } := by
    simp [send_encoded_data, initState, Convention.initLevel, Convention.prevSeed]
  rw [hsp]
  set A : MState :=
      { buffer := p ++ (0x55 :: List.replicate 254 0).drop p.length,
        length := (p.length + 1) % 256, busy := true, pin := false, prev := false,
        clk := true, byteIndex := 0, bitIndex := 6, tcbEnabled := true } with hA
  have hpblen : (pendingBits A).length = 8 * p.length + 7 := by
    rw [pendingBits_length]
    show 6 + 1 + 8 * ((p.length + 1) % 256 - (0 + 1)) = 8 * p.length + 7
    omega
  have hw : ticks .geThomas (16 * p.length + 16) A = geTicks false (pendingBits A) :=
    geThomas_ticks_eq (16 * p.length + 16) A rfl rfl rfl
      (show (0 : Nat) < (p.length + 1) % 256 by omega)
      (show (p.length + 1) % 256 ≤ 255 by omega)
      (by rw [hpblen]; omega)
  have hwave : waveform .geThomas A (16 * p.length + 16) =
      false :: geTicks false (pendingBits A) := by
    show A.pin :: ticks .geThomas (16 * p.length + 16) A = _
    rw [hw]
  rw [hwave,
      show 2 * (8 * p.length + 7) = 2 * (pendingBits A).length from by rw [hpblen],
      specDecode_geTicks (pendingBits A) false (pendingBits_ne_nil A)]
  simp only [Option.map_some']
  refine congrArg some ?_
  obtain ⟨p0, pt, rfl⟩ : ∃ p0 pt, p = p0 :: pt := by
    cases p with
    | nil => exact absurd rfl hne
    | cons a l => exact ⟨a, l, rfl⟩
  have hpbA : pendingBits A =
      bitsDown p0 6 ++
        tailBits ((p0 :: pt) ++ (0x55 :: List.replicate 254 0).drop (p0 :: pt).length)
          1 (pt.length + 1) := by
    show bitsDown _ 6 ++
        tailBits _ (0 + 1) (((p0 :: pt).length + 1) % 256 - (0 + 1)) = _
    rw [hmod]
    norm_num
  rw [hpbA]
  set buf : List Nat :=
      (p0 :: pt) ++ (0x55 :: List.replicate 254 0).drop (p0 :: pt).length with hbuf
  have hlen2 : pt.length ≤ 253 := by
    simp only [List.length_cons] at hlen
    omega
  have hbuflen : buf.length = 255 := by
    rw [hbuf]
    simp [List.length_append, List.length_drop, List.length_cons, List.length_replicate]
    omega
  rw [tailBits_snoc buf pt.length 1]
  have htb7 : bitsDown (buf.getD (1 + pt.length) 0) 7 ≠ [] := bitsDown_ne_nil _ _
  have hY : tailBits buf 1 pt.length ++ bitsDown (buf.getD (1 + pt.length) 0) 7 ≠ [] := by
    simp only [ne_eq, List.append_eq_nil, not_and]
    intro _ h
    exact htb7 h
  rw [List.dropLast_append_of_ne_nil _ hY,
      List.dropLast_append_of_ne_nil _ htb7,
      ← List.cons_append, bytesOfBits_head_append,
      bytesOfBits_tailBits buf pt.length 1 (by rw [hbuflen]; omega),
      bytesOfBits_bitsDown7_dropLast, List.append_nil]
  have hdrop : buf.drop 1 = pt ++ (0x55 :: List.replicate 254 0).drop (p0 :: pt).length :=
    rfl
  rw [hdrop, List.take_left' rfl,
      map_mod256_eq_self pt (fun b hb => hbytes b (List.mem_cons_of_mem _ hb)),
      Nat.mod_eq_of_lt (show p0 < 128 from by simpa using hhead)]

/-- The IEEE build does not decode under its own rule even with the framing
byte value: the `prev = 1` seed contradicts the high arm level written by
`PORTA.OUTSET` (which pre-emits a logical 0), so every data bit after the
pre-emitted one is put on the line with inverted polarity — the first
transmitted byte 0x55 comes back as 0x2A. -/
theorem ieee_first_byte_inverted :
    (specDecodeBits .ieee ((waveform .ieee
        (send_encoded_data (initState .ieee) [0x55]).1 32).take 16)).map bytesOfBits =
      some [0x2A] := by
  decide
